import Mathlib

/-!
Verification of the exoplanet report pipeline (`exoplanets.py`).

A shallow embedding of the data-processing core of the repository:
records are association lists from field names to raw string values
(one CSV/JSON row each), numeric values are exact rationals (the Python
code computes with IEEE doubles; every concrete value checked here is
exact in both models), and fallible operations (Python `KeyError` from
a missing dictionary key, `ValueError` from `float` on a malformed
string) return `Except Unit`.

Rational values are constructed through `Rat.divInt` and integer
arithmetic so that every definition evaluates by kernel reduction;
`ratMul` and `ratDiv` are proved equal to `*` and `/` on `ℚ`.

Float values that reach sort keys are modelled by `PyFloat`: an exact
rational for finite values together with the infinities and `nan`, with
the overflow of `float` on huge decimal literals clamping to the
infinities exactly as CPython does (`float("1e400")` is `inf`).
-/

namespace Exo

/-- A record: an ordered association list of field names to raw string
values, modelling one row of the CSV / one object of the JSON snapshot.
Python dictionaries have unique keys; lookup takes the first match. -/
abbrev Record := List (String × String)

instance {ε α : Type} [DecidableEq ε] [DecidableEq α] : DecidableEq (Except ε α) :=
  fun a b =>
    match a, b with
    | .ok x, .ok y =>
      if h : x = y then .isTrue (by rw [h]) else .isFalse (fun hh => h (Except.ok.inj hh))
    | .error x, .error y =>
      if h : x = y then .isTrue (by rw [h]) else .isFalse (fun hh => h (Except.error.inj hh))
    | .ok _, .error _ => .isFalse (fun hh => Except.noConfusion hh)
    | .error _, .ok _ => .isFalse (fun hh => Except.noConfusion hh)

/-- Dictionary access `row[field]` as a total function: `none` models the
case where the key is absent (Python raises `KeyError` there). -/
def getField (r : Record) (f : String) : Option String :=
  (r.find? (fun p => p.1 == f)).map (fun p => p.2)

/-- Multiplication on `ℚ`, computed on numerators and denominators so
that it reduces in the kernel; proved equal to `*` in `ratMul_eq`. -/
def ratMul (a b : ℚ) : ℚ :=
  Rat.divInt (a.num * b.num) ((a.den : ℤ) * (b.den : ℤ))

/-- Division on `ℚ`, computed on numerators and denominators so that it
reduces in the kernel; proved equal to `/` in `ratDiv_eq`. -/
def ratDiv (a b : ℚ) : ℚ :=
  Rat.divInt (a.num * (b.den : ℤ)) ((a.den : ℤ) * b.num)

theorem ratMul_eq (a b : ℚ) : ratMul a b = a * b := by
  rw [ratMul, Rat.divInt_eq_div]
  push_cast
  rw [← div_mul_div_comm, Rat.num_div_den, Rat.num_div_den]

theorem ratDiv_eq (a b : ℚ) : ratDiv a b = a / b := by
  rw [ratDiv, Rat.divInt_eq_div]
  push_cast
  rcases eq_or_ne b 0 with hb | hb
  · subst hb; simp
  · have had : ((a.den : ℚ)) ≠ 0 := by exact_mod_cast Rat.den_ne_zero a
    have hbd : ((b.den : ℚ)) ≠ 0 := by exact_mod_cast Rat.den_ne_zero b
    have hbn : ((b.num : ℚ)) ≠ 0 := by exact_mod_cast Rat.num_ne_zero.mpr hb
    have ha2 : a * ((a.den : ℚ)) = ((a.num : ℚ)) :=
      (eq_div_iff had).mp (Rat.num_div_den a).symm
    have hb2 : b * ((b.den : ℚ)) = ((b.num : ℚ)) :=
      (eq_div_iff hbd).mp (Rat.num_div_den b).symm
    rw [div_eq_div_iff (mul_ne_zero had hbn) hb, ← ha2, ← hb2]
    ring

/-- Consume leading decimal digits; returns accumulated value, number of
digits consumed, and the remaining characters. -/
def readDigits : List Char → ℕ → ℕ → ℕ × ℕ × List Char
  | [], acc, n => (acc, n, [])
  | c :: cs, acc, n =>
    if c.isDigit then readDigits cs (10 * acc + (c.toNat - 48)) (n + 1)
    else (acc, n, c :: cs)

/-- The plain-decimal fragment of Python `float(s)`, with exact rational
semantics: optional sign, integer digits, optional fractional part,
optional exponent part, as in `"12"`, `"-3.5"`, `".5"`, `"1e4"`,
`"2.5E-3"`.  Used by the report-body renderers, which only ever see
in-range decimal values; the full `float` semantics (whitespace,
keywords, underscores, overflow) is `pyFloat` below. -/
def parseFloat (s : String) : Option ℚ :=
  let cs := s.toList
  let sgncs : ℤ × List Char :=
    match cs with
    | '+' :: t => (1, t)
    | '-' :: t => (-1, t)
    | t => (1, t)
  let ipr := readDigits sgncs.2 0 0
  let fpr : ℕ × ℕ × List Char :=
    match ipr.2.2 with
    | '.' :: t => readDigits t 0 0
    | t => (0, 0, t)
  if ipr.2.1 = 0 ∧ fpr.2.1 = 0 then none
  else
    let mant : ℤ := sgncs.1 * ((ipr.1 : ℤ) * (10 : ℤ) ^ fpr.2.1 + (fpr.1 : ℤ))
    match fpr.2.2 with
    | [] => some (Rat.divInt mant ((10 : ℤ) ^ fpr.2.1))
    | c :: t =>
      if c = 'e' ∨ c = 'E' then
        let est : Bool × List Char :=
          match t with
          | '+' :: t2 => (true, t2)
          | '-' :: t2 => (false, t2)
          | t2 => (true, t2)
        let evr := readDigits est.2 0 0
        if evr.2.1 = 0 then none
        else if evr.2.2 ≠ [] then none
        else if est.1 then some (Rat.divInt (mant * (10 : ℤ) ^ evr.1) ((10 : ℤ) ^ fpr.2.1))
        else some (Rat.divInt mant ((10 : ℤ) ^ (fpr.2.1 + evr.1)))
      else none

/-- Python floats as sort keys: an exact rational for finite values
(the idealization used throughout this file), the two infinities, and
`nan`.  The linear order below places `nan` above `inf`; Python compares
`nan` as neither smaller nor greater, so `sorted` over keys containing
`nan` has no clean specification and the ordering theorems that involve
the order carry nan-freeness hypotheses where it matters. -/
inductive PyFloat
  | finite (q : ℚ)
  | inf
  | neginf
  | nan

/-- Rank `PyFloat` into `ℕ ×ₗ ℚ`: `neginf` below every finite value,
`inf` above them, `nan` above `inf` (see `PyFloat`). -/
def PyFloat.toKey : PyFloat → ℕ ×ₗ ℚ
  | .neginf => toLex (0, 0)
  | .finite q => toLex (1, q)
  | .inf => toLex (2, 0)
  | .nan => toLex (3, 0)

theorem PyFloat.toKey_injective : Function.Injective PyFloat.toKey := by
  intro a b h
  cases a <;> cases b <;>
    simp only [PyFloat.toKey, toLex_inj, Prod.mk.injEq] at h <;>
    simp_all

instance : LinearOrder PyFloat :=
  LinearOrder.lift' PyFloat.toKey PyFloat.toKey_injective

theorem pyFloat_le_def (a b : PyFloat) : a ≤ b ↔ a.toKey ≤ b.toKey := Iff.rfl

theorem pyFloat_lt_def (a b : PyFloat) : a < b ↔ a.toKey < b.toKey := Iff.rfl

/-- Every finite value sorts strictly below `inf`. -/
theorem pyFinite_lt_inf (q : ℚ) : PyFloat.finite q < PyFloat.inf := by
  rw [pyFloat_lt_def]
  show toLex (1, q) < toLex (2, 0)
  rw [Prod.Lex.lt_iff]
  left
  exact one_lt_two

/-- Only `inf` itself and `nan` sort at or above `inf`. -/
theorem pyInf_le_iff (k : PyFloat) :
    PyFloat.inf ≤ k ↔ k = PyFloat.inf ∨ k = PyFloat.nan := by
  cases k <;>
    simp [pyFloat_le_def, PyFloat.toKey, Prod.Lex.le_iff] <;>
    try decide

/-- The six ASCII whitespace characters Python strips around the
argument of `float` (space, tab, newline, carriage return, vertical
tab, form feed). -/
def isPySpace (c : Char) : Bool :=
  c = ' ' || c = '\t' || c = '\n' || c = '\r' || c.toNat = 11 || c.toNat = 12

/-- Drop leading Python whitespace. -/
def dropWs : List Char → List Char
  | [] => []
  | c :: cs => if isPySpace c then dropWs cs else c :: cs

/-- Strip Python whitespace from both ends. -/
def stripWs (cs : List Char) : List Char :=
  (dropWs ((dropWs cs).reverse)).reverse

/-- ASCII lower-casing, for the case-insensitive `inf` / `infinity` /
`nan` keywords of `float`. -/
def lowerChar (c : Char) : Char :=
  if 'A' ≤ c ∧ c ≤ 'Z' then Char.ofNat (c.toNat + 32) else c

/-- Consume leading decimal digits allowing the single underscores
between digits of PEP 515, as Python `float` accepts (`"1_000.5"`);
returns the accumulated value, the number of digits consumed, and the
remaining characters.  An underscore not both preceded and followed by
a digit is left unconsumed. -/
def readDigitsU : List Char → ℕ → ℕ → ℕ × ℕ × List Char
  | [], acc, n => (acc, n, [])
  | '_' :: c :: cs, acc, n =>
    if n ≠ 0 ∧ c.isDigit then readDigitsU cs (10 * acc + (c.toNat - 48)) (n + 1)
    else (acc, n, '_' :: c :: cs)
  | c :: cs, acc, n =>
    if c.isDigit then readDigitsU cs (10 * acc + (c.toNat - 48)) (n + 1)
    else (acc, n, c :: cs)

/-- Exponentiation by squaring with a structural fuel, so that large
powers such as `2 ^ 1024` reduce in logarithmic depth; `binPow_eq`
proves it equal to `^`. -/
def binPowAux (b : ℕ) : ℕ → ℕ → ℕ
  | 0, _ => 1
  | fuel + 1, d =>
    if d = 0 then 1
    else
      let h := binPowAux b fuel (d / 2)
      if d % 2 = 0 then h * h else b * (h * h)

/-- `binPow b d = b ^ d`, computed by squaring (see `binPow_eq`). -/
def binPow (b d : ℕ) : ℕ := binPowAux b d d

theorem binPowAux_eq (b : ℕ) :
    ∀ fuel d : ℕ, d ≤ fuel → binPowAux b fuel d = b ^ d := by
  intro fuel
  induction fuel with
  | zero =>
    intro d hd
    interval_cases d
    rfl
  | succ n ih =>
    intro d hd
    by_cases h0 : d = 0
    · subst h0
      rfl
    · have hrec : binPowAux b (n + 1) d =
          (if d % 2 = 0 then binPowAux b n (d / 2) * binPowAux b n (d / 2)
            else b * (binPowAux b n (d / 2) * binPowAux b n (d / 2))) := by
        rw [binPowAux, if_neg h0]
      rw [hrec, ih (d / 2) (by omega)]
      by_cases h2 : d % 2 = 0
      · rw [if_pos h2, ← pow_add]
        congr 1
        omega
      · rw [if_neg h2]
        have hm : d % 2 = 1 := by omega
        calc b * (b ^ (d / 2) * b ^ (d / 2)) = b ^ (1 + (d / 2 + d / 2)) := by
              rw [pow_add, pow_add, pow_one]
          _ = b ^ d := by congr 1; omega

theorem binPow_eq (b d : ℕ) : binPow b d = b ^ d :=
  binPowAux_eq b d d le_rfl

/-- Clamp the exact decimal `m / 10 ^ d` to a `PyFloat`: decimals at or
beyond the round-to-nearest overflow threshold `2 ^ 1024 - 2 ^ 970` of
IEEE doubles become the infinities — Python `float("1e400")` evaluates
to `inf` — and in-range decimals are kept as exact rationals (the
idealization of this file; Python rounds them to the nearest double,
monotonically). -/
def clampFloat (m : ℤ) (d : ℕ) : PyFloat :=
  if (((binPow 2 1024 - binPow 2 970 : ℕ) : ℤ)) * ((binPow 10 d : ℕ) : ℤ) ≤ m then
    PyFloat.inf
  else if m ≤ -((((binPow 2 1024 - binPow 2 970 : ℕ) : ℤ)) * ((binPow 10 d : ℕ) : ℤ)) then
    PyFloat.neginf
  else PyFloat.finite (Rat.divInt m ((binPow 10 d : ℕ) : ℤ))

/-- Python `float(s)` in full: strip surrounding whitespace, optional
sign, then either the case-insensitive keywords `inf` / `infinity` /
`nan` or a decimal literal with optional fraction, optional exponent
and PEP 515 underscore grouping, with overflowing literals clamping to
the infinities.  Returns `none` where Python raises `ValueError`.
(ASCII inputs; finite results are exact rationals rather than rounded
doubles, so a subnormal underflow to `0.0` is likewise kept exact.) -/
def pyFloat (s : String) : Option PyFloat :=
  let cs := stripWs s.toList
  let sgn : ℤ × List Char :=
    match cs with
    | '+' :: t => (1, t)
    | '-' :: t => (-1, t)
    | t => (1, t)
  let low := sgn.2.map lowerChar
  if low = ['i', 'n', 'f'] ∨ low = ['i', 'n', 'f', 'i', 'n', 'i', 't', 'y'] then
    some (if sgn.1 = 1 then PyFloat.inf else PyFloat.neginf)
  else if low = ['n', 'a', 'n'] then some PyFloat.nan
  else
    let ipr := readDigitsU sgn.2 0 0
    let fpr : ℕ × ℕ × List Char :=
      match ipr.2.2 with
      | '.' :: t => readDigitsU t 0 0
      | t => (0, 0, t)
    if ipr.2.1 = 0 ∧ fpr.2.1 = 0 then none
    else
      let mant : ℤ := sgn.1 * (((ipr.1 * binPow 10 fpr.2.1 + fpr.1 : ℕ)) : ℤ)
      match fpr.2.2 with
      | [] => some (clampFloat mant fpr.2.1)
      | c :: t =>
        if c = 'e' ∨ c = 'E' then
          let est : Bool × List Char :=
            match t with
            | '+' :: t2 => (true, t2)
            | '-' :: t2 => (false, t2)
            | t2 => (true, t2)
          let evr := readDigitsU est.2 0 0
          if evr.2.1 = 0 then none
          else if evr.2.2 ≠ [] then none
          else if est.1 then some (clampFloat (mant * ((binPow 10 evr.1 : ℕ) : ℤ)) fpr.2.1)
          else some (clampFloat mant (fpr.2.1 + evr.1))
        else none

/-! Constants from the top of `exoplanets.py`, as exact rationals
(each agrees exactly with the IEEE double the Python source holds;
bridge lemmas below restate them in the scientific notation of the
source). -/

def EARTH_RADIUS_KM : ℚ := 6371
def EARTH_FLUX_W_M2 : ℚ := 1361
def EARTH_MASS_KG : ℚ := 5972000000000000000000000
def SOLAR_MASS_KG : ℚ := 1988500000000000000000000000000
def PARSEC_M : ℚ := 30856775810000000
def AU_PER_PARSEC : ℚ := 206265
def LIGHTYEARS_PER_PARSEC : ℚ := Rat.divInt 326156 100000
def EARTH_YEAR : ℚ := Rat.divInt 36525 100

theorem EARTH_MASS_KG_eq : EARTH_MASS_KG = 5.972e24 := by
  norm_num [EARTH_MASS_KG]

theorem SOLAR_MASS_KG_eq : SOLAR_MASS_KG = 1.9885e30 := by
  norm_num [SOLAR_MASS_KG]

theorem PARSEC_M_eq : PARSEC_M = 3.085677581e16 := by
  norm_num [PARSEC_M]

theorem LIGHTYEARS_PER_PARSEC_eq : LIGHTYEARS_PER_PARSEC = 3.26156 := by
  norm_num [LIGHTYEARS_PER_PARSEC, Rat.divInt_eq_div]

theorem EARTH_YEAR_eq : EARTH_YEAR = 365.25 := by
  norm_num [EARTH_YEAR, Rat.divInt_eq_div]

/-- `MISSING_VALUE = float("inf")`: the sentinel sort key substituted
for an unknown numeric field.  It is the same value `float` returns for
a literal infinity keyword or an overflowing decimal, so a known raw
value can carry the sentinel key too. -/
def MISSING_VALUE : PyFloat := PyFloat.inf

/-- The key lambda each numeric report passes to `sort_data`, e.g.
`lambda x: float(x["sy_dist"]) if x["sy_dist"] else MISSING_VALUE`.
A missing dictionary key (`KeyError`) or a non-empty value that `float`
rejects (`ValueError`) is an error. -/
def numKey (field : String) (r : Record) : Except Unit PyFloat :=
  match getField r field with
  | none => .error ()
  | some v =>
    if v = "" then .ok MISSING_VALUE
    else
      match pyFloat v with
      | some k => .ok k
      | none => .error ()

/-- The key lambda of `publication_date`:
`lambda x: x["disc_pubdate"] if x["disc_pubdate"] else "9999-12-31"`.
Python compares strings lexicographically by code point; the key is
embedded as the code-point list so that the lexicographic order on
`List Char` is exactly the Python string order. -/
def dateKey (r : Record) : Except Unit (List Char) :=
  match getField r "disc_pubdate" with
  | none => .error ()
  | some v => if v = "" then .ok ("9999-12-31".toList) else .ok v.toList

/-- The shared first-seen deduplication loop of `check_duplicates` and
`sort_data` (the source repeats the same four lines in both), keyed by
`row["pl_name"]`; `seen` is the accumulated `set_data`. Errors when a
record has no `pl_name` key (Python `KeyError`). -/
def dedupGo : List Record → List String → Except Unit (List Record)
  | [], _ => .ok []
  | r :: rs, seen =>
    match getField r "pl_name" with
    | none => .error ()
    | some name =>
      if name ∈ seen then dedupGo rs seen
      else (dedupGo rs (name :: seen)).map (fun out => r :: out)

/-- `check_duplicates(reader)`: keep, for each planet name, only the
first record bearing it, in input order. -/
def check_duplicates (rows : List Record) : Except Unit (List Record) :=
  dedupGo rows []

/-- The decoration step of Python `sorted(data, key=funct)`: apply the
key function once to every element, in order; the first exception
raised by the key function aborts the sort. -/
def keyRecords {κ : Type} (key : Record → Except Unit κ) :
    List Record → Except Unit (List (κ × Record))
  | [] => .ok []
  | r :: rs =>
    match key r with
    | .error e => .error e
    | .ok k =>
      match keyRecords key rs with
      | .error e => .error e
      | .ok ps => .ok ((k, r) :: ps)

/-- Comparison of decorated elements by extracted key only. -/
def pairLE {κ : Type} [LinearOrder κ] (a b : κ × Record) : Prop :=
  a.1 ≤ b.1

instance {κ : Type} [LinearOrder κ] : DecidableRel (@pairLE κ _) :=
  fun a b => inferInstanceAs (Decidable (a.1 ≤ b.1))

instance {κ : Type} [LinearOrder κ] : IsTotal (κ × Record) pairLE :=
  ⟨fun a b => le_total a.1 b.1⟩

instance {κ : Type} [LinearOrder κ] : IsTrans (κ × Record) pairLE :=
  ⟨fun _ _ _ h h2 => le_trans h h2⟩

/-- `sort_data(funct)`: sort the records by the extracted key with a
stable sort (Python `sorted`; modelled by the stable `insertionSort`,
which agrees with every stable sort for a total preorder), then re-apply
first-seen deduplication by planet name to the sorted sequence. -/
def sort_data {κ : Type} [LinearOrder κ] (key : Record → Except Unit κ)
    (data : List Record) : Except Unit (List Record) :=
  match keyRecords key data with
  | .error e => .error e
  | .ok ps =>
    check_duplicates ((ps.insertionSort pairLE).map (fun p => p.2))

/-! ### Properties of the deduplication loop -/

/-- Two records carry different planet names. -/
def nameNe (a b : Record) : Prop :=
  getField a "pl_name" ≠ getField b "pl_name"

instance : DecidableRel nameNe :=
  fun a b => inferInstanceAs (Decidable (getField a "pl_name" ≠ getField b "pl_name"))

/-- The first record in `rows` whose planet name is `n`. -/
def firstOcc (rows : List Record) (n : String) : Option Record :=
  rows.find? (fun r => decide (getField r "pl_name" = some n))

theorem dedupGo_sublist {rows : List Record} {seen : List String} {out : List Record}
    (h : dedupGo rows seen = .ok out) : out.Sublist rows := by
  induction rows generalizing seen out with
  | nil =>
    simp only [dedupGo, Except.ok.injEq] at h
    simp [← h]
  | cons r rs ih =>
    cases hg : getField r "pl_name" with
    | none => simp [dedupGo, hg] at h
    | some name =>
      by_cases hm : name ∈ seen
      · simp only [dedupGo, hg, if_pos hm] at h
        exact (ih h).cons r
      · simp only [dedupGo, hg, if_neg hm] at h
        cases hrec : dedupGo rs (name :: seen) with
        | error e => rw [hrec] at h; exact absurd h (by simp [Except.map])
        | ok out2 =>
          rw [hrec] at h
          simp only [Except.map, Except.ok.injEq] at h
          rw [← h]
          exact (ih hrec).cons₂ r

theorem dedupGo_firstOcc {rows : List Record} {seen : List String} {out : List Record}
    (h : dedupGo rows seen = .ok out) :
    ∀ r ∈ out, ∃ n, getField r "pl_name" = some n ∧ n ∉ seen ∧ firstOcc rows n = some r := by
  induction rows generalizing seen out with
  | nil =>
    simp only [dedupGo, Except.ok.injEq] at h
    simp [← h]
  | cons r rs ih =>
    cases hg : getField r "pl_name" with
    | none => simp [dedupGo, hg] at h
    | some name =>
      by_cases hm : name ∈ seen
      · simp only [dedupGo, hg, if_pos hm] at h
        intro r2 hr2
        obtain ⟨n, hn, hns, hf⟩ := ih h r2 hr2
        refine ⟨n, hn, hns, ?_⟩
        have hne : name ≠ n := fun he => hns (he ▸ hm)
        simpa [firstOcc, List.find?, hg, hne] using hf
      · simp only [dedupGo, hg, if_neg hm] at h
        cases hrec : dedupGo rs (name :: seen) with
        | error e => rw [hrec] at h; exact absurd h (by simp [Except.map])
        | ok out2 =>
          rw [hrec] at h
          simp only [Except.map, Except.ok.injEq] at h
          rw [← h]
          intro r2 hr2
          rcases List.mem_cons.mp hr2 with he | hmem
          · subst he
            exact ⟨name, hg, hm, by simp [firstOcc, List.find?, hg]⟩
          · obtain ⟨n, hn, hns, hf⟩ := ih hrec r2 hmem
            have hns2 : n ∉ seen := fun hc => hns (List.mem_cons_of_mem _ hc)
            have hne : name ≠ n := fun he => hns (he ▸ List.mem_cons_self _ _)
            refine ⟨n, hn, hns2, ?_⟩
            simpa [firstOcc, List.find?, hg, hne] using hf

theorem dedupGo_names {rows : List Record} {seen : List String} {out : List Record}
    (h : dedupGo rows seen = .ok out) :
    (∀ r ∈ out, ∀ n, getField r "pl_name" = some n → n ∉ seen) ∧ out.Pairwise nameNe := by
  induction rows generalizing seen out with
  | nil =>
    simp only [dedupGo, Except.ok.injEq] at h
    simp [← h]
  | cons r rs ih =>
    cases hg : getField r "pl_name" with
    | none => simp [dedupGo, hg] at h
    | some name =>
      by_cases hm : name ∈ seen
      · simp only [dedupGo, hg, if_pos hm] at h
        exact ih h
      · simp only [dedupGo, hg, if_neg hm] at h
        cases hrec : dedupGo rs (name :: seen) with
        | error e => rw [hrec] at h; exact absurd h (by simp [Except.map])
        | ok out2 =>
          rw [hrec] at h
          simp only [Except.map, Except.ok.injEq] at h
          obtain ⟨hseen2, hpw2⟩ := ih hrec
          rw [← h]
          constructor
          · intro r2 hr2 n hn hns
            rcases List.mem_cons.mp hr2 with he | hmem
            · subst he
              rw [hg] at hn
              exact hm (Option.some.inj hn ▸ hns)
            · exact hseen2 r2 hmem n hn (List.mem_cons_of_mem _ hns)
          · refine List.Pairwise.cons ?_ hpw2
            intro r2 hr2
            intro hcon
            obtain ⟨n2, hn2⟩ : ∃ n2, getField r2 "pl_name" = some n2 := by
              rcases hg2 : getField r2 "pl_name" with _ | n2
              · rw [hg, hg2] at hcon; exact absurd hcon (by simp)
              · exact ⟨n2, rfl⟩
            rw [hg, hn2] at hcon
            have : name = n2 := Option.some.inj hcon
            exact hseen2 r2 hr2 n2 hn2 (this ▸ List.mem_cons_self _ _)

theorem dedupGo_complete {rows : List Record} {seen : List String} {out : List Record}
    (h : dedupGo rows seen = .ok out) :
    ∀ r ∈ rows, ∀ n, getField r "pl_name" = some n → n ∉ seen →
      ∃ r2 ∈ out, getField r2 "pl_name" = some n := by
  induction rows generalizing seen out with
  | nil => simp
  | cons r rs ih =>
    cases hg : getField r "pl_name" with
    | none => simp [dedupGo, hg] at h
    | some name =>
      by_cases hm : name ∈ seen
      · simp only [dedupGo, hg, if_pos hm] at h
        intro r2 hr2 n hn hns
        rcases List.mem_cons.mp hr2 with he | hmem
        · subst he
          rw [hg] at hn
          exact absurd (Option.some.inj hn ▸ hm) hns
        · exact ih h r2 hmem n hn hns
      · simp only [dedupGo, hg, if_neg hm] at h
        cases hrec : dedupGo rs (name :: seen) with
        | error e => rw [hrec] at h; exact absurd h (by simp [Except.map])
        | ok out2 =>
          rw [hrec] at h
          simp only [Except.map, Except.ok.injEq] at h
          rw [← h]
          intro r2 hr2 n hn hns
          rcases List.mem_cons.mp hr2 with he | hmem
          · subst he
            exact ⟨r2, List.mem_cons_self _ _, hn⟩
          · by_cases hne : n = name
            · subst hne
              exact ⟨r, List.mem_cons_self _ _, hg⟩
            · obtain ⟨r3, hr3, hn3⟩ :=
                ih hrec r2 hmem n hn (by simp [hns, hne])
              exact ⟨r3, List.mem_cons_of_mem _ hr3, hn3⟩

theorem dedupGo_idem {rows : List Record} {seen : List String} {out : List Record}
    (h : dedupGo rows seen = .ok out) : dedupGo out seen = .ok out := by
  induction rows generalizing seen out with
  | nil =>
    simp only [dedupGo, Except.ok.injEq] at h
    rw [← h]
    rfl
  | cons r rs ih =>
    cases hg : getField r "pl_name" with
    | none => simp [dedupGo, hg] at h
    | some name =>
      by_cases hm : name ∈ seen
      · simp only [dedupGo, hg, if_pos hm] at h
        exact ih h
      · simp only [dedupGo, hg, if_neg hm] at h
        cases hrec : dedupGo rs (name :: seen) with
        | error e => rw [hrec] at h; exact absurd h (by simp [Except.map])
        | ok out2 =>
          rw [hrec] at h
          simp only [Except.map, Except.ok.injEq] at h
          rw [← h]
          simp only [dedupGo, hg, if_neg hm, ih hrec, Except.map]

theorem dedupGo_noop {rows : List Record} {seen : List String} {out : List Record}
    (h : dedupGo rows seen = .ok out) (hpw : rows.Pairwise nameNe)
    (hseen : ∀ r ∈ rows, ∀ n, getField r "pl_name" = some n → n ∉ seen) :
    out = rows := by
  induction rows generalizing seen out with
  | nil =>
    simp only [dedupGo, Except.ok.injEq] at h
    exact h.symm
  | cons r rs ih =>
    cases hg : getField r "pl_name" with
    | none => simp [dedupGo, hg] at h
    | some name =>
      have hm : name ∉ seen := hseen r (List.mem_cons_self _ _) name hg
      simp only [dedupGo, hg, if_neg hm] at h
      cases hrec : dedupGo rs (name :: seen) with
      | error e => rw [hrec] at h; exact absurd h (by simp [Except.map])
      | ok out2 =>
        rw [hrec] at h
        simp only [Except.map, Except.ok.injEq] at h
        have hpw2 := List.pairwise_cons.mp hpw
        have : out2 = rs := by
          refine ih hrec hpw2.2 ?_
          intro r2 hr2 n hn hns
          rcases List.mem_cons.mp hns with he | hmem
          · subst he
            exact hpw2.1 r2 hr2 (by rw [hg, hn])
          · exact hseen r2 (List.mem_cons_of_mem _ hr2) n hn hmem
        rw [← h, this]

/-! ### Properties of key extraction and the sorting pipeline -/

theorem keyRecords_map_snd {κ : Type} {key : Record → Except Unit κ}
    {data : List Record} {ps : List (κ × Record)}
    (h : keyRecords key data = .ok ps) : ps.map (fun p => p.2) = data := by
  induction data generalizing ps with
  | nil =>
    simp only [keyRecords, Except.ok.injEq] at h
    simp [← h]
  | cons r rs ih =>
    cases hk : key r with
    | error e => simp [keyRecords, hk] at h
    | ok k =>
      cases hrec : keyRecords key rs with
      | error e => simp [keyRecords, hk, hrec] at h
      | ok ps2 =>
        simp only [keyRecords, hk, hrec, Except.ok.injEq] at h
        rw [← h]
        simp [ih hrec]

theorem keyRecords_key {κ : Type} {key : Record → Except Unit κ}
    {data : List Record} {ps : List (κ × Record)}
    (h : keyRecords key data = .ok ps) : ∀ p ∈ ps, key p.2 = .ok p.1 := by
  induction data generalizing ps with
  | nil =>
    simp only [keyRecords, Except.ok.injEq] at h
    simp [← h]
  | cons r rs ih =>
    cases hk : key r with
    | error e => simp [keyRecords, hk] at h
    | ok k =>
      cases hrec : keyRecords key rs with
      | error e => simp [keyRecords, hk, hrec] at h
      | ok ps2 =>
        simp only [keyRecords, hk, hrec, Except.ok.injEq] at h
        rw [← h]
        intro p hp
        rcases List.mem_cons.mp hp with he | hmem
        · rw [he]; exact hk
        · exact ih hrec p hmem

theorem keyRecords_error {κ : Type} {key : Record → Except Unit κ}
    {data : List Record} (r : Record) (hr : r ∈ data) (he : key r = .error ()) :
    keyRecords key data = .error () := by
  induction data with
  | nil => cases hr
  | cons r2 rs ih =>
    rcases List.mem_cons.mp hr with heq | hmem
    · subst heq
      simp [keyRecords, he]
    · cases hk : key r2 with
      | error e => simp [keyRecords, hk]
      | ok k => simp [keyRecords, hk, ih hmem]

/-- Whether the extracted key of `r` is exactly `k`. -/
def keyIs {κ : Type} [DecidableEq κ] (key : Record → Except Unit κ) (r : Record) (k : κ) :
    Bool :=
  match key r with
  | .ok k2 => decide (k2 = k)
  | .error _ => false

/-- Everything `sort_data` guarantees about the sorted sequence it
deduplicates: the sorted sequence is a permutation of the input, every
record in it has a well-defined key, keys increase along it, and
filtering to the records of any one key value leaves exactly the input
subsequence of that key value (stability of the sort). -/
theorem sort_data_spec {κ : Type} [LinearOrder κ] {key : Record → Except Unit κ}
    {data out : List Record} (h : sort_data key data = .ok out) :
    ∃ s : List Record,
      s.Perm data ∧
      check_duplicates s = .ok out ∧
      (∀ r ∈ s, ∃ k, key r = .ok k) ∧
      s.Pairwise (fun a b => ∀ ka kb, key a = .ok ka → key b = .ok kb → ka ≤ kb) ∧
      (∀ k : κ, s.filter (fun r => keyIs key r k) = data.filter (fun r => keyIs key r k)) := by
  rcases hps : keyRecords key data with e | ps
  · rw [sort_data, hps] at h; exact absurd h (by simp)
  · rw [sort_data, hps] at h
    set sorted := ps.insertionSort pairLE with hsorted
    refine ⟨sorted.map (fun p => p.2), ?_, h, ?_, ?_, ?_⟩
    · have h1 : (sorted.map (fun p => p.2)).Perm (ps.map (fun p => p.2)) :=
        (List.perm_insertionSort pairLE ps).map _
      rw [keyRecords_map_snd hps] at h1
      exact h1
    · intro r hr
      obtain ⟨p, hp, hpe⟩ := List.mem_map.mp hr
      have hp2 : p ∈ ps := (List.perm_insertionSort pairLE ps).mem_iff.mp hp
      exact ⟨p.1, hpe ▸ keyRecords_key hps p hp2⟩
    · have hs : sorted.Pairwise pairLE := List.sorted_insertionSort pairLE ps
      have hs2 : sorted.Pairwise
          (fun p q : κ × Record =>
            ∀ ka kb, key p.2 = .ok ka → key q.2 = .ok kb → ka ≤ kb) := by
        refine hs.imp_of_mem ?_
        intro p q hp hq hle ka kb hka hkb
        have hp2 : p ∈ ps := (List.perm_insertionSort pairLE ps).mem_iff.mp hp
        have hq2 : q ∈ ps := (List.perm_insertionSort pairLE ps).mem_iff.mp hq
        have h1 : ka = p.1 :=
          (Except.ok.inj ((keyRecords_key hps p hp2).symm.trans hka)).symm
        have h2 : kb = q.1 :=
          (Except.ok.inj ((keyRecords_key hps q hq2).symm.trans hkb)).symm
        rw [h1, h2]
        exact hle
      exact List.pairwise_map.mpr hs2
    · intro k
      have hcongr : ∀ (l : List (κ × Record)), (∀ p ∈ l, p ∈ ps) →
          l.filter (fun p => keyIs key p.2 k) = l.filter (fun p => decide (p.1 = k)) := by
        intro l hl
        refine List.filter_congr ?_
        intro p hp
        rw [keyIs, keyRecords_key hps p (hl p hp)]
      have hmemsorted : ∀ p ∈ sorted, p ∈ ps :=
        fun p hp => (List.perm_insertionSort pairLE ps).mem_iff.mp hp
      have hcore : sorted.filter (fun p => decide (p.1 = k)) =
          ps.filter (fun p => decide (p.1 = k)) := by
        set c := ps.filter (fun p => decide (p.1 = k)) with hc
        have hcsub : c.Sublist ps := ps.filter_sublist
        have hcpw : c.Pairwise pairLE := by
          refine List.pairwise_of_forall_mem_list ?_
          intro a ha b hb
          have ha2 : a.1 = k := by
            simpa using (List.mem_filter.mp ha).2
          have hb2 : b.1 = k := by
            simpa using (List.mem_filter.mp hb).2
          rw [pairLE, ha2, hb2]
        have h1 : c.Sublist sorted := List.sublist_insertionSort hcpw hcsub
        have h2 : c.filter (fun p => decide (p.1 = k)) = c := by
          refine List.filter_eq_self.mpr ?_
          intro a ha
          simpa using (List.mem_filter.mp ha).2
        have h3 : c.Sublist (sorted.filter (fun p => decide (p.1 = k))) :=
          h2 ▸ h1.filter _
        have h4 : (sorted.filter (fun p => decide (p.1 = k))).length = c.length :=
          ((List.perm_insertionSort pairLE ps).filter _).length_eq
        exact (h3.eq_of_length h4.symm).symm
      calc (sorted.map (fun p => p.2)).filter (fun r => keyIs key r k)
          = (sorted.filter ((fun r => keyIs key r k) ∘ (fun p => p.2))).map (fun p => p.2) :=
            List.filter_map _ _
        _ = (sorted.filter (fun p => decide (p.1 = k))).map (fun p => p.2) := by
            rw [show ((fun r => keyIs key r k) ∘ (fun p : κ × Record => p.2)) =
              (fun p : κ × Record => keyIs key p.2 k) from rfl,
              hcongr sorted hmemsorted]
        _ = (ps.filter (fun p => decide (p.1 = k))).map (fun p => p.2) := by rw [hcore]
        _ = (ps.filter (fun p => keyIs key p.2 k)).map (fun p => p.2) := by
            rw [hcongr ps (fun p hp => hp)]
        _ = (ps.map (fun p => p.2)).filter (fun r => keyIs key r k) := by
            rw [List.filter_map]
            rfl
        _ = data.filter (fun r => keyIs key r k) := by rw [keyRecords_map_snd hps]

/-- When every key extraction succeeds, `sort_data` succeeds up to the
deduplication stage; conversely a failing key extraction fails the
whole call. -/
theorem sort_data_error {κ : Type} [LinearOrder κ] {key : Record → Except Unit κ}
    {data : List Record} (r : Record) (hr : r ∈ data) (he : key r = .error ()) :
    sort_data key data = .error () := by
  rw [sort_data, keyRecords_error r hr he]

/-- The numeric key is the sentinel exactly on an empty raw value or on
a raw value `float` evaluates to positive infinity (a literal infinity
keyword or an overflowing decimal). -/
theorem numKey_missing_iff {field : String} {r : Record} :
    numKey field r = .ok MISSING_VALUE ↔
      ∃ v, getField r field = some v ∧ (v = "" ∨ pyFloat v = some PyFloat.inf) := by
  cases hg : getField r field with
  | none => simp [numKey, hg]
  | some v =>
    by_cases hv : v = ""
    · subst hv; simp [numKey, hg]
    · cases hp : pyFloat v with
      | none => simp [numKey, hg, hv, hp]
      | some k =>
        simp only [numKey, hg, if_neg hv, hp]
        constructor
        · intro hc
          have hk : k = MISSING_VALUE := Except.ok.inj hc
          exact ⟨v, rfl, Or.inr (by rw [hp, hk]; rfl)⟩
        · rintro ⟨w, hw, hw2 | hw2⟩
          · exact absurd ((Option.some.inj hw).trans hw2) hv
          · rw [← Option.some.inj hw, hp] at hw2
            rw [Option.some.inj hw2]
            rfl

/-- The publication-date key is the sentinel exactly on an empty raw
value or on the literal sentinel date itself. -/
theorem dateKey_sentinel_iff {r : Record} :
    dateKey r = .ok ("9999-12-31".toList) ↔
      getField r "disc_pubdate" = some "" ∨
      getField r "disc_pubdate" = some "9999-12-31" := by
  cases hg : getField r "disc_pubdate" with
  | none => simp [dateKey, hg]
  | some v =>
    by_cases hv : v = ""
    · subst hv; simp [dateKey, hg]
    · simp only [dateKey, hg, if_neg hv, Except.ok.injEq, Option.some.injEq]
      constructor
      · intro hc
        exact Or.inr (by rw [← String.toList_inj] at *; exact hc)
      · intro hc
        rcases hc with hc | hc
        · exact absurd hc hv
        · rw [hc]

/-! ### Python numeric formatting (`"{:,.Nf}"`) -/

/-- Round to the nearest integer, ties to even (the rounding of Python
string formatting), computed on the numerator and denominator. -/
def roundHalfEven (q : ℚ) : ℤ :=
  let n := q.num
  let d := (q.den : ℤ)
  let f := n.fdiv d
  let r := n - f * d
  if 2 * r < d then f
  else if d < 2 * r then f + 1
  else if f % 2 = 0 then f else f + 1

/-- Decimal digits of `n`, least significant first; `fuel ≥ n` always
suffices. -/
def natDigitsAux : ℕ → ℕ → List ℕ
  | 0, _ => []
  | _ + 1, 0 => []
  | fuel + 1, n + 1 => ((n + 1) % 10) :: natDigitsAux fuel ((n + 1) / 10)

/-- Digit characters of `n`, least significant first. -/
def digitCharsLSB (n : ℕ) : List Char :=
  if n = 0 then ['0'] else (natDigitsAux n n).map (fun d => Char.ofNat (48 + d))

/-- Insert a comma before every third digit counted from the least
significant end; input and output are least significant first. -/
def commaAux : List Char → ℕ → List Char
  | [], _ => []
  | c :: cs, n =>
    if n ≠ 0 ∧ n % 3 = 0 then ',' :: c :: commaAux cs (n + 1)
    else c :: commaAux cs (n + 1)

/-- Python `"{:,.Nf}".format(x)`: thousands separators in the integer
part, exactly `decimals` digits after the point, round half to even.
(Python formats the IEEE double; on the exact values checked in this
file the two agree.) -/
def fmtComma (decimals : ℕ) (q : ℚ) : String :=
  let neg : Bool := decide (q < 0)
  let a : ℚ := if neg then -q else q
  let scaled : ℚ := ratMul a (((10 : ℤ) ^ decimals : ℤ) : ℚ)
  let n := (roundHalfEven scaled).toNat
  let ip := n / 10 ^ decimals
  let fp := n % 10 ^ decimals
  let ipStr := String.mk ((commaAux (digitCharsLSB ip) 0).reverse)
  let signStr := if neg then "-" else ""
  if decimals = 0 then signStr ++ ipStr
  else
    let fpDigits := (natDigitsAux fp fp).map (fun d => Char.ofNat (48 + d))
    let padded := fpDigits ++ List.replicate (decimals - fpDigits.length) '0'
    signStr ++ ipStr ++ "." ++ String.mk padded.reverse

/-! ### The report renderers -/

/-- One entry of the distance report body: the converted figures with
their formatted strings, or the literal No data fallback. -/
inductive DistEntry
  | data (km au ly pc : ℚ) (kmStr auStr lyStr pcStr : String)
  | nodata
deriving DecidableEq

/-- The per-record body of `exoplanets_distance` (lines 304-320): a
record with a non-empty `sy_dist` yields the km / au / light-year /
parsec figures with their `:,.0f` and `:,.2f` renderings; an empty one
yields the No data line.  The comparison
`exoplanet["sy_dist"] != MISSING_VALUE` in the source compares a string
to a float and is therefore always true; it is dropped here.  A
non-empty unparseable value raises `ValueError` inside `float`. -/
def distanceEntry (r : Record) : Except Unit DistEntry :=
  match getField r "sy_dist" with
  | none => .error ()
  | some v =>
    if v = "" then .ok .nodata
    else
      match parseFloat v with
      | none => .error ()
      | some q =>
        let km := ratDiv (ratMul q PARSEC_M) 1000
        let au := ratMul q AU_PER_PARSEC
        let ly := ratMul q LIGHTYEARS_PER_PARSEC
        .ok (.data km au ly q
          (fmtComma 0 km) (fmtComma 0 au) (fmtComma 2 ly) (fmtComma 2 q))

/-- One entry of the orbital-period report body. -/
inductive OrbEntry
  | data (days years : ℚ) (estimated : Bool)
  | nodata
deriving DecidableEq

/-- The per-record body of `orbital_period` (lines 422-440): a non-empty
`pl_orbper` whose `float` value is strictly below 10000 renders the
plain block, strictly above renders the block labelled estimated, and
exactly 10000 matches neither the `if` nor the `elif`, so nothing at
all is written for that record (its rank is still consumed by
`enumerate`); an empty value renders the No data line. -/
def orbitalEntry (r : Record) : Except Unit (Option OrbEntry) :=
  match getField r "pl_orbper" with
  | none => .error ()
  | some v =>
    if v = "" then .ok (some .nodata)
    else
      match parseFloat v with
      | none => .error ()
      | some q =>
        if q < 10000 then .ok (some (.data q (ratDiv q EARTH_YEAR) false))
        else if 10000 < q then .ok (some (.data q (ratDiv q EARTH_YEAR) true))
        else .ok none

/-- The `for i, exoplanet in enumerate(data, start=i0)` loop shared by
all report writers: renders one entry per record at consecutive ranks. -/
def renderFrom {β : Type} (render : Record → Except Unit β) (i : ℕ) :
    List Record → Except Unit (List (ℕ × β))
  | [] => .ok []
  | r :: rs =>
    match render r with
    | .error e => .error e
    | .ok b =>
      match renderFrom render (i + 1) rs with
      | .error e => .error e
      | .ok l => .ok ((i, b) :: l)

theorem renderFrom_ranks {β : Type} {render : Record → Except Unit β} {i : ℕ}
    {rows : List Record} {l : List (ℕ × β)}
    (h : renderFrom render i rows = .ok l) :
    l.map (fun p => p.1) = List.range' i rows.length ∧ l.length = rows.length := by
  induction rows generalizing i l with
  | nil =>
    simp only [renderFrom, Except.ok.injEq] at h
    simp [← h]
  | cons r rs ih =>
    cases hr : render r with
    | error e => simp [renderFrom, hr] at h
    | ok b =>
      cases hrec : renderFrom render (i + 1) rs with
      | error e => simp [renderFrom, hr, hrec] at h
      | ok l2 =>
        simp only [renderFrom, hr, hrec, Except.ok.injEq] at h
        obtain ⟨h1, h2⟩ := ih hrec
        rw [← h]
        constructor
        · simp [h1, List.range', h2]
        · simp [h2]

/-! ### Field projection (`clean_csv_data`) -/

/-- The allow-list of `clean_csv_data`. -/
def fieldnames : List String :=
  ["pl_name", "disc_year", "disc_pubdate", "sy_dist", "discoverymethod",
    "pl_orbper", "pl_orbsmax", "pl_rade", "pl_masse", "pl_eqt", "pl_insol",
    "st_teff", "st_mass", "st_rad"]

/-- The dictionary comprehension of `clean_csv_data`:
`{field: row[field] for field in fieldnames}`.  Python raises `KeyError`
(the error case here) at the first requested field name absent from the
record; a present-but-empty value is simply copied. -/
def projectRecord (fields : List String) (r : Record) : Except Unit Record :=
  match fields with
  | [] => .ok []
  | f :: fs =>
    match getField r f with
    | none => .error ()
    | some v =>
      match projectRecord fs r with
      | .error e => .error e
      | .ok out => .ok ((f, v) :: out)

/-! ### Publication-date shape and the date sentinel -/

/-- The YYYY-MM shape of the archive publication dates: four year
digits, a dash, and a month 01-12 (a month 00 is also accepted; only
the upper bound matters for the ordering lemma). -/
def isYYYYMM (s : String) : Bool :=
  match s.toList with
  | [y1, y2, y3, y4, d, m1, m2] =>
    y1.isDigit && y2.isDigit && y3.isDigit && y4.isDigit && decide (d = '-') &&
      ((decide (m1 = '0') && m2.isDigit) ||
        (decide (m1 = '1') &&
          (decide (m2 = '0') || decide (m2 = '1') || decide (m2 = '2'))))
  | _ => false

theorem digit_lt_or_eq_nine {c : Char} (h : c.isDigit = true) : c < '9' ∨ c = '9' := by
  have h2 : c ≤ '9' := by
    simp only [Char.isDigit, Bool.and_eq_true, decide_eq_true_eq] at h
    exact h.2
  exact lt_or_eq_of_le h2

theorem isYYYYMM_lt_sentinel {s : String} (h : isYYYYMM s = true) :
    s.toList < "9999-12-31".toList := by
  unfold isYYYYMM at h
  split at h
  case h_2 => exact absurd h (by simp)
  case h_1 y1 y2 y3 y4 d m1 m2 heq =>
    rw [heq]
    simp only [Bool.and_eq_true, Bool.or_eq_true, decide_eq_true_eq] at h
    obtain ⟨⟨⟨⟨⟨h1, h2⟩, h3⟩, h4⟩, hd⟩, hm⟩ := h
    subst hd
    show List.Lex (· < ·) _ _
    rcases digit_lt_or_eq_nine h1 with hy | hy
    · exact List.Lex.rel hy
    · subst hy
      refine List.Lex.cons ?_
      rcases digit_lt_or_eq_nine h2 with hy2 | hy2
      · exact List.Lex.rel hy2
      · subst hy2
        refine List.Lex.cons ?_
        rcases digit_lt_or_eq_nine h3 with hy3 | hy3
        · exact List.Lex.rel hy3
        · subst hy3
          refine List.Lex.cons ?_
          rcases digit_lt_or_eq_nine h4 with hy4 | hy4
          · exact List.Lex.rel hy4
          · subst hy4
            refine List.Lex.cons ?_
            refine List.Lex.cons ?_
            rcases hm with ⟨hm1, _⟩ | ⟨hm1, hm2⟩
            · subst hm1
              exact List.Lex.rel (by decide)
            · subst hm1
              refine List.Lex.cons ?_
              rcases hm2 with (hm2 | hm2) | hm2
              · subst hm2
                exact List.Lex.rel (by decide)
              · subst hm2
                exact List.Lex.rel (by decide)
              · subst hm2
                exact List.Lex.cons List.Lex.nil

/-! ### Projection lemmas -/

theorem projectRecord_ok_iff (fields : List String) (r : Record) :
    (∃ out, projectRecord fields r = .ok out) ↔ ∀ f ∈ fields, (getField r f).isSome := by
  induction fields with
  | nil => simp [projectRecord]
  | cons f fs ih =>
    cases hg : getField r f with
    | none =>
      constructor
      · rintro ⟨out, hout⟩
        simp [projectRecord, hg] at hout
      · intro hall
        have h2 := hall f (List.mem_cons_self _ _)
        rw [hg] at h2
        exact absurd h2 (by simp)
    | some v =>
      constructor
      · rintro ⟨out, hout⟩ f2 hf2
        rcases List.mem_cons.mp hf2 with he | hmem
        · subst he; simp [hg]
        · rcases hrec : projectRecord fs r with e | out2
          · simp [projectRecord, hg, hrec] at hout
          · exact (ih.mp ⟨out2, hrec⟩) f2 hmem
      · intro hall
        obtain ⟨out2, hout2⟩ := ih.mpr (fun f2 hf2 => hall f2 (List.mem_cons_of_mem _ hf2))
        exact ⟨(f, v) :: out2, by simp [projectRecord, hg, hout2]⟩

theorem projectRecord_ok_eq {fields : List String} {r : Record} {out : Record}
    (h : projectRecord fields r = .ok out) :
    out = fields.map (fun f => (f, ((getField r f).getD ""))) := by
  induction fields generalizing out with
  | nil =>
    simp only [projectRecord, Except.ok.injEq] at h
    simp [← h]
  | cons f fs ih =>
    cases hg : getField r f with
    | none => simp [projectRecord, hg] at h
    | some v =>
      cases hrec : projectRecord fs r with
      | error e => simp [projectRecord, hg, hrec] at h
      | ok out2 =>
        simp only [projectRecord, hg, hrec, Except.ok.injEq] at h
        rw [← h, ih hrec]
        simp [hg]

/-! ### The claims -/

/-- C4: the deduplicator `check_duplicates` keeps, for each distinct
planet name, exactly the first record bearing it, in original relative
order: the output is a subsequence of the input (hence no longer than
it), empty input yields empty output, every retained record is the
first occurrence of its own name, every input name is still
represented, and the function is idempotent.  Purity is inherent in the
embedding: the function cannot mutate its input list. -/
theorem C4_check_duplicates_contract :
    check_duplicates ([] : List Record) = .ok [] ∧
    ∀ rows out : List Record, check_duplicates rows = .ok out →
      out.Sublist rows ∧
      out.length ≤ rows.length ∧
      (∀ r ∈ out, ∃ n, getField r "pl_name" = some n ∧ firstOcc rows n = some r) ∧
      (∀ r ∈ rows, ∀ n, getField r "pl_name" = some n →
        ∃ r2 ∈ out, getField r2 "pl_name" = some n) ∧
      check_duplicates out = .ok out := by
  refine ⟨rfl, ?_⟩
  intro rows out h
  refine ⟨dedupGo_sublist h, (dedupGo_sublist h).length_le, ?_, ?_, dedupGo_idem h⟩
  · intro r hr
    obtain ⟨n, hn, _, hf⟩ := dedupGo_firstOcc h r hr
    exact ⟨n, hn, hf⟩
  · intro r hr n hn
    exact dedupGo_complete h r hr n hn (List.not_mem_nil n)

/-- Concrete instance of C4 on the duplicated list of the repository
test suite. -/
theorem C4_check_duplicates_contract_witness :
    ([[("pl_name", "Earth")], [("pl_name", "Mars")], [("pl_name", "Venus")]] :
        List Record).Sublist
      [[("pl_name", "Earth")], [("pl_name", "Mars")], [("pl_name", "Venus")],
        [("pl_name", "Mars")], [("pl_name", "Earth")]] ∧
    ([[("pl_name", "Earth")], [("pl_name", "Mars")], [("pl_name", "Venus")]] :
        List Record).length ≤
      ([[("pl_name", "Earth")], [("pl_name", "Mars")], [("pl_name", "Venus")],
        [("pl_name", "Mars")], [("pl_name", "Earth")]] : List Record).length ∧
    (∀ r ∈ ([[("pl_name", "Earth")], [("pl_name", "Mars")], [("pl_name", "Venus")]] :
        List Record),
      ∃ n, getField r "pl_name" = some n ∧
        firstOcc
          [[("pl_name", "Earth")], [("pl_name", "Mars")], [("pl_name", "Venus")],
            [("pl_name", "Mars")], [("pl_name", "Earth")]] n = some r) ∧
    (∀ r ∈ ([[("pl_name", "Earth")], [("pl_name", "Mars")], [("pl_name", "Venus")],
        [("pl_name", "Mars")], [("pl_name", "Earth")]] : List Record),
      ∀ n, getField r "pl_name" = some n →
        ∃ r2 ∈ ([[("pl_name", "Earth")], [("pl_name", "Mars")], [("pl_name", "Venus")]] :
          List Record), getField r2 "pl_name" = some n) ∧
    check_duplicates
        ([[("pl_name", "Earth")], [("pl_name", "Mars")], [("pl_name", "Venus")]] :
          List Record) =
      .ok [[("pl_name", "Earth")], [("pl_name", "Mars")], [("pl_name", "Venus")]] :=
  C4_check_duplicates_contract.2
    [[("pl_name", "Earth")], [("pl_name", "Mars")], [("pl_name", "Venus")],
      [("pl_name", "Mars")], [("pl_name", "Earth")]]
    [[("pl_name", "Earth")], [("pl_name", "Mars")], [("pl_name", "Venus")]]
    (by decide)

/-- C2 is refuted: `sort_data` deduplicates the SORTED sequence, so
given two records that share `pl_name` `B` but carry different sort
values `5` and `1`, the retained record is the one with the smaller
key, which is the second record of the input, not the first. -/
theorem C2_counterexample :
    sort_data (numKey "sy_dist")
        [[("pl_name", "B"), ("sy_dist", "5")], [("pl_name", "B"), ("sy_dist", "1")]] =
      .ok [[("pl_name", "B"), ("sy_dist", "1")]] ∧
    ([[("pl_name", "B"), ("sy_dist", "1")]] : List Record) ≠
      [[("pl_name", "B"), ("sy_dist", "5")]] :=
  ⟨by decide, by decide⟩

/-- C2 amended: the defensive re-deduplication of `sort_data` retains,
for each distinct planet name, the first record bearing it in the
SORTED order (among duplicate names, a record with the smallest
extracted key; ties are broken by input order through stability of the
sort), and every input name remains represented. -/
theorem C2_sorted_first_retained {κ : Type} [LinearOrder κ]
    (key : Record → Except Unit κ) (data out : List Record)
    (h : sort_data key data = .ok out) :
    ∃ s : List Record,
      s.Perm data ∧
      s.Pairwise (fun a b => ∀ ka kb, key a = .ok ka → key b = .ok kb → ka ≤ kb) ∧
      (∀ k : κ, s.filter (fun r => keyIs key r k) = data.filter (fun r => keyIs key r k)) ∧
      (∀ r ∈ out, ∃ n, getField r "pl_name" = some n ∧ firstOcc s n = some r) ∧
      (∀ r ∈ s, ∀ n, getField r "pl_name" = some n →
        ∃ r2 ∈ out, getField r2 "pl_name" = some n) := by
  obtain ⟨s, hperm, hdedup, hkeys, hpw, hfilt⟩ := sort_data_spec h
  refine ⟨s, hperm, hpw, hfilt, ?_, ?_⟩
  · intro r hr
    obtain ⟨n, hn, _, hf⟩ := dedupGo_firstOcc hdedup r hr
    exact ⟨n, hn, hf⟩
  · intro r hr n hn
    exact dedupGo_complete hdedup r hr n hn (List.not_mem_nil n)

/-- Concrete instance of the amended C2 at the counterexample input. -/
theorem C2_sorted_first_retained_witness :
    ∃ s : List Record,
      s.Perm [[("pl_name", "B"), ("sy_dist", "5")], [("pl_name", "B"), ("sy_dist", "1")]] ∧
      s.Pairwise (fun a b => ∀ ka kb : PyFloat,
        numKey "sy_dist" a = .ok ka → numKey "sy_dist" b = .ok kb → ka ≤ kb) ∧
      (∀ k : PyFloat,
        s.filter (fun r => keyIs (numKey "sy_dist") r k) =
          ([[("pl_name", "B"), ("sy_dist", "5")],
            [("pl_name", "B"), ("sy_dist", "1")]] : List Record).filter
            (fun r => keyIs (numKey "sy_dist") r k)) ∧
      (∀ r ∈ ([[("pl_name", "B"), ("sy_dist", "1")]] : List Record),
        ∃ n, getField r "pl_name" = some n ∧ firstOcc s n = some r) ∧
      (∀ r ∈ s, ∀ n, getField r "pl_name" = some n →
        ∃ r2 ∈ ([[("pl_name", "B"), ("sy_dist", "1")]] : List Record),
          getField r2 "pl_name" = some n) :=
  C2_sorted_first_retained (numKey "sy_dist")
    [[("pl_name", "B"), ("sy_dist", "5")], [("pl_name", "B"), ("sy_dist", "1")]]
    [[("pl_name", "B"), ("sy_dist", "1")]] (by decide)

/-- C10: the output of `sort_data` never carries two records with the
same planet name, and the distance report built from it assigns the
consecutive 1-based ranks 1..n with no gaps. -/
theorem C10_unique_names_consecutive_ranks {κ : Type} [LinearOrder κ]
    (key : Record → Except Unit κ) (data out : List Record)
    (h : sort_data key data = .ok out) :
    out.Pairwise nameNe ∧
    ∀ rep : List (ℕ × DistEntry), renderFrom distanceEntry 1 out = .ok rep →
      rep.map (fun p => p.1) = List.range' 1 rep.length ∧ rep.length = out.length := by
  obtain ⟨s, _, hdedup, _, _, _⟩ := sort_data_spec h
  refine ⟨(dedupGo_names hdedup).2, ?_⟩
  intro rep hrep
  obtain ⟨h1, h2⟩ := renderFrom_ranks hrep
  exact ⟨by rw [h1, h2], h2⟩

/-- Concrete instance of C10 on an input that still carries a duplicate
planet name and an unknown distance. -/
theorem C10_unique_names_consecutive_ranks_witness :
    ([[("pl_name", "A"), ("sy_dist", "0")], [("pl_name", "B"), ("sy_dist", "")]] :
        List Record).Pairwise nameNe ∧
    ([(1, DistEntry.data 0 0 0 0 "0" "0" "0.00" "0.00"), (2, DistEntry.nodata)] :
        List (ℕ × DistEntry)).map (fun p => p.1) =
      List.range' 1
        ([(1, DistEntry.data 0 0 0 0 "0" "0" "0.00" "0.00"), (2, DistEntry.nodata)] :
          List (ℕ × DistEntry)).length ∧
    ([(1, DistEntry.data 0 0 0 0 "0" "0" "0.00" "0.00"), (2, DistEntry.nodata)] :
        List (ℕ × DistEntry)).length =
      ([[("pl_name", "A"), ("sy_dist", "0")], [("pl_name", "B"), ("sy_dist", "")]] :
        List Record).length :=
  have h := C10_unique_names_consecutive_ranks (numKey "sy_dist")
    [[("pl_name", "B"), ("sy_dist", "")], [("pl_name", "A"), ("sy_dist", "0")],
      [("pl_name", "B"), ("sy_dist", "")]]
    [[("pl_name", "A"), ("sy_dist", "0")], [("pl_name", "B"), ("sy_dist", "")]]
    (by decide)
  ⟨h.1, h.2 [(1, DistEntry.data 0 0 0 0 "0" "0" "0.00" "0.00"), (2, DistEntry.nodata)]
    (by decide)⟩

/-- C1 counterexample: on an unknown distance `U` and a known,
non-empty distance `K = "1e400"`, Python `float` evaluates the known
value to `inf` — the very sentinel of the unknowns — so the two keys
tie and the stable sort leaves the unknown record FIRST: a record with
an unknown sort field does not rank strictly after every record with a
known value, refuting strictly-after regardless of the known
magnitudes. -/
theorem C1_counterexample :
    sort_data (numKey "sy_dist")
        [[("pl_name", "U"), ("sy_dist", "")],
          [("pl_name", "K"), ("sy_dist", "1e400")]] =
      .ok [[("pl_name", "U"), ("sy_dist", "")],
        [("pl_name", "K"), ("sy_dist", "1e400")]] ∧
    getField [("pl_name", "U"), ("sy_dist", "")] "sy_dist" = some "" ∧
    getField [("pl_name", "K"), ("sy_dist", "1e400")] "sy_dist" = some "1e400" ∧
    ("1e400" : String) ≠ "" ∧
    numKey "sy_dist" [("pl_name", "K"), ("sy_dist", "1e400")] = .ok MISSING_VALUE :=
  ⟨by decide, by decide, by decide, by decide, by decide⟩

/-- C1 amended: in every numeric report (distance, discovery year,
radius, orbital period, mass, stellar mass, insolation all call
`sort_data` with `numKey` on their field) over nan-free data, every
record at or after a record with an empty sort field also carries the
sentinel key: unknowns rank after every record with a FINITE known
value, but a known raw value that `float` evaluates to `inf` (an
overflowing literal such as `"1e400"` or an infinity keyword) carries
the very sentinel and ties with the unknowns instead of preceding them
strictly.  The publication-date report ranks unknowns after known
dates whenever those have the YYYY-MM shape of the archive.  The
sentinels dominate: the numeric sentinel `inf` exceeds every finite
value and the date sentinel `"9999-12-31"` exceeds every YYYY-MM date
string in the code-point order Python uses.  Records whose sort field
is absent entirely never reach a generated report: the key lambda
raises `KeyError`, so `sort_data` fails and no report is written. -/
theorem C1_sentinel_ordering :
    (∀ (field : String) (data out : List Record),
      sort_data (numKey field) data = .ok out →
      (∀ r ∈ data, numKey field r ≠ .ok PyFloat.nan) →
      out.Pairwise (fun a b => getField a field = some "" →
        numKey field b = .ok MISSING_VALUE)) ∧
    (∀ data out : List Record,
      sort_data dateKey data = .ok out →
      (∀ r ∈ data, ∀ v, getField r "disc_pubdate" = some v → v ≠ "" → isYYYYMM v = true) →
      out.Pairwise (fun a b =>
        getField a "disc_pubdate" = some "" → getField b "disc_pubdate" = some "")) ∧
    (∀ q : ℚ, PyFloat.finite q < MISSING_VALUE) ∧
    (∀ s : String, isYYYYMM s = true → s.toList < "9999-12-31".toList) := by
  refine ⟨?_, ?_, fun q => pyFinite_lt_inf q, fun s hs => isYYYYMM_lt_sentinel hs⟩
  · intro field data out h hnan
    obtain ⟨s, hperm, hdedup, hkeys, hpw, _⟩ := sort_data_spec h
    have hsub := dedupGo_sublist hdedup
    refine (List.Pairwise.sublist hsub hpw).imp_of_mem ?_
    intro a b ha hb hR h1
    have hka : numKey field a = .ok MISSING_VALUE :=
      numKey_missing_iff.mpr ⟨"", h1, Or.inl rfl⟩
    obtain ⟨kb, hkb⟩ := hkeys b (hsub.subset hb)
    have hle : MISSING_VALUE ≤ kb := hR MISSING_VALUE kb hka hkb
    rcases (pyInf_le_iff kb).mp hle with hkb2 | hkb2
    · rw [hkb, hkb2]
      rfl
    · exact absurd (hkb2 ▸ hkb) (hnan b (hperm.subset (hsub.subset hb)))
  · intro data out h hshape
    obtain ⟨s, hperm, hdedup, hkeys, hpw, _⟩ := sort_data_spec h
    have hsub := dedupGo_sublist hdedup
    refine (List.Pairwise.sublist hsub hpw).imp_of_mem ?_
    intro a b ha hb hR h1
    have hka : dateKey a = .ok ("9999-12-31".toList) :=
      dateKey_sentinel_iff.mpr (Or.inl h1)
    obtain ⟨kb, hkb⟩ := hkeys b (hsub.subset hb)
    have hle : "9999-12-31".toList ≤ kb := hR _ kb hka hkb
    cases hgb : getField b "disc_pubdate" with
    | none => rw [dateKey, hgb] at hkb; exact absurd hkb (by simp)
    | some w =>
      by_cases hw : w = ""
      · rw [hw]
      · have hkb2 : kb = w.toList := by
          simp only [dateKey, hgb, if_neg hw] at hkb
          exact (Except.ok.inj hkb).symm
        have hbd : b ∈ data := hperm.subset (hsub.subset hb)
        have hsh : isYYYYMM w = true := hshape b hbd w hgb hw
        have hlt : w.toList < "9999-12-31".toList := isYYYYMM_lt_sentinel hsh
        rw [hkb2] at hle
        exact absurd hle (not_le_of_lt hlt)

/-- Concrete instance of the amended C1: a known finite distance
precedes an unknown one, a known date precedes an unknown one, the
sentinels dominate. -/
theorem C1_sentinel_ordering_witness :
    ([[("pl_name", "B"), ("sy_dist", "1")], [("pl_name", "A"), ("sy_dist", "")]] :
        List Record).Pairwise
      (fun a b => getField a "sy_dist" = some "" →
        numKey "sy_dist" b = .ok MISSING_VALUE) ∧
    ([[("pl_name", "Q"), ("disc_pubdate", "2014-05")],
        [("pl_name", "P"), ("disc_pubdate", "")]] : List Record).Pairwise
      (fun a b =>
        getField a "disc_pubdate" = some "" → getField b "disc_pubdate" = some "") ∧
    PyFloat.finite 0 < MISSING_VALUE ∧
    "2014-05".toList < "9999-12-31".toList :=
  ⟨C1_sentinel_ordering.1 "sy_dist"
      [[("pl_name", "A"), ("sy_dist", "")], [("pl_name", "B"), ("sy_dist", "1")]]
      [[("pl_name", "B"), ("sy_dist", "1")], [("pl_name", "A"), ("sy_dist", "")]]
      (by decide) (by decide),
    C1_sentinel_ordering.2.1
      [[("pl_name", "P"), ("disc_pubdate", "")],
        [("pl_name", "Q"), ("disc_pubdate", "2014-05")]]
      [[("pl_name", "Q"), ("disc_pubdate", "2014-05")],
        [("pl_name", "P"), ("disc_pubdate", "")]]
      (by decide) (by decide),
    C1_sentinel_ordering.2.2.1 0,
    C1_sentinel_ordering.2.2.2 "2014-05" (by decide)⟩

/-- C5: sort stability.  On a deduplicated input (pairwise distinct
planet names), filtering the generated report order and the input order
to the records of any one key value yields the same list, so equal-key
records, ties among unknowns included, keep their relative input order;
determinism of a re-run is immediate since the generator is a function
of its input. -/
theorem C5_sort_stability {κ : Type} [LinearOrder κ]
    (key : Record → Except Unit κ) (data out : List Record)
    (h : sort_data key data = .ok out) (hnd : data.Pairwise nameNe) (k : κ) :
    out.filter (fun r => keyIs key r k) = data.filter (fun r => keyIs key r k) := by
  obtain ⟨s, hperm, hdedup, hkeys, hpw, hfilt⟩ := sort_data_spec h
  have hnds : s.Pairwise nameNe :=
    (hperm.pairwise_iff (fun hab => Ne.symm hab)).mpr hnd
  have hout : out = s :=
    dedupGo_noop hdedup hnds (fun r hr n hn => List.not_mem_nil n)
  rw [hout]
  exact hfilt k

/-- Concrete instance of C5: two records tie on the key `1`; the report
keeps them in input order. -/
theorem C5_sort_stability_witness :
    ([[("pl_name", "A"), ("sy_dist", "1")], [("pl_name", "B"), ("sy_dist", "1.0")],
        [("pl_name", "C"), ("sy_dist", "")]] : List Record).filter
      (fun r => keyIs (numKey "sy_dist") r (PyFloat.finite 1)) =
    ([[("pl_name", "A"), ("sy_dist", "1")], [("pl_name", "B"), ("sy_dist", "1.0")],
        [("pl_name", "C"), ("sy_dist", "")]] : List Record).filter
      (fun r => keyIs (numKey "sy_dist") r (PyFloat.finite 1)) :=
  C5_sort_stability (numKey "sy_dist")
    [[("pl_name", "A"), ("sy_dist", "1")], [("pl_name", "B"), ("sy_dist", "1.0")],
      [("pl_name", "C"), ("sy_dist", "")]]
    [[("pl_name", "A"), ("sy_dist", "1")], [("pl_name", "B"), ("sy_dist", "1.0")],
      [("pl_name", "C"), ("sy_dist", "")]]
    (by decide) (by decide) (PyFloat.finite 1)

/-- C7 counterexample: Python `float` accepts more than plain decimal
numbers — the raw value `"inf"` parses to infinity, which IS the
MISSING_VALUE sentinel, so this non-empty value is treated as unknown
and the report generation succeeds where the claim asserts a fatal
error; `" 1.5"` (surrounding whitespace) and `"1_000.5"` (PEP 515
underscore grouping) likewise parse, so emptiness is not the only path
to the sentinel and unparseability is narrower than non-decimality. -/
theorem C7_counterexample :
    pyFloat "inf" = some PyFloat.inf ∧
    pyFloat " 1.5" = some (PyFloat.finite (Rat.divInt 3 2)) ∧
    pyFloat "1_000.5" = some (PyFloat.finite (Rat.divInt 2001 2)) ∧
    ("inf" : String) ≠ "" ∧
    numKey "sy_dist" [("pl_name", "I"), ("sy_dist", "inf")] = .ok MISSING_VALUE ∧
    sort_data (numKey "sy_dist") [[("pl_name", "I"), ("sy_dist", "inf")]] =
      .ok [[("pl_name", "I"), ("sy_dist", "inf")]] :=
  ⟨by decide, by decide, by decide, by decide, by decide, by decide⟩

/-- C7 amended: a non-empty sort-field value that `float` rejects with
`ValueError` makes the whole report generation fail (the error
surfaces; the record is neither skipped nor treated as unknown), where
`float` carries its full Python semantics: whitespace stripping,
`inf` / `infinity` / `nan` keywords, underscore grouping and overflow
to the infinities.  The key is the sentinel exactly on an empty value
OR a non-empty value `float` evaluates to positive infinity, so
emptiness is not the only source of unknowns.  Textual `"0"` and
`"0.0"` are the legitimate value zero, not unknown. -/
theorem C7_malformed_fatal :
    (∀ (field : String) (data : List Record) (r : Record) (v : String),
      r ∈ data → getField r field = some v → v ≠ "" → pyFloat v = none →
      sort_data (numKey field) data = .error ()) ∧
    (∀ (field : String) (r : Record),
      numKey field r = .ok MISSING_VALUE ↔
        ∃ v, getField r field = some v ∧ (v = "" ∨ pyFloat v = some PyFloat.inf)) ∧
    pyFloat "0" = some (PyFloat.finite 0) ∧
    pyFloat "0.0" = some (PyFloat.finite 0) ∧
    (∀ (field : String) (r : Record), getField r field = some "0" →
      numKey field r = .ok (PyFloat.finite 0)) := by
  refine ⟨?_, fun field r => numKey_missing_iff, by decide, by decide, ?_⟩
  · intro field data r v hr hg hv hp
    refine sort_data_error r hr ?_
    simp [numKey, hg, hv, hp]
  · intro field r hg
    have hp : pyFloat "0" = some (PyFloat.finite 0) := by decide
    simp [numKey, hg, hp]

/-- Concrete instance of the amended C7: the value `"alpha"` aborts the
distance report, the sentinel characterization at an empty value, and
the value `"0"` is the legitimate key zero. -/
theorem C7_malformed_fatal_witness :
    sort_data (numKey "sy_dist")
        [[("pl_name", "A"), ("sy_dist", "2")], [("pl_name", "X"), ("sy_dist", "alpha")]] =
      .error () ∧
    (numKey "sy_dist" [("pl_name", "E"), ("sy_dist", "")] = .ok MISSING_VALUE ↔
      ∃ v, getField [("pl_name", "E"), ("sy_dist", "")] "sy_dist" = some v ∧
        (v = "" ∨ pyFloat v = some PyFloat.inf)) ∧
    numKey "sy_dist" [("pl_name", "Z"), ("sy_dist", "0")] = .ok (PyFloat.finite 0) :=
  ⟨C7_malformed_fatal.1 "sy_dist"
      [[("pl_name", "A"), ("sy_dist", "2")], [("pl_name", "X"), ("sy_dist", "alpha")]]
      [("pl_name", "X"), ("sy_dist", "alpha")] "alpha"
      (by decide) (by decide) (by decide) (by decide),
    C7_malformed_fatal.2.1 "sy_dist" [("pl_name", "E"), ("sy_dist", "")],
    C7_malformed_fatal.2.2.2.2 "sy_dist" [("pl_name", "Z"), ("sy_dist", "0")] (by decide)⟩

/-- C6: field projection.  The dictionary comprehension of
`clean_csv_data` succeeds exactly when every allow-listed field name is
a key of the source record (a present-but-empty value is not an error),
and on success the new record consists of exactly the allow-listed
fields, in order, each bound to its raw source value. -/
theorem C6_projection :
    (∀ (fields : List String) (r : Record),
      (∃ out, projectRecord fields r = .ok out) ↔
        ∀ f ∈ fields, (getField r f).isSome) ∧
    (∀ (fields : List String) (r : Record) (out : Record),
      projectRecord fields r = .ok out →
      out = fields.map (fun f => (f, ((getField r f).getD "")))) :=
  ⟨projectRecord_ok_iff, fun _ _ _ h => projectRecord_ok_eq h⟩

/-- Concrete instance of C6: projection of a record with an empty but
present field succeeds and copies it; the full allow-list projects a
complete record. -/
theorem C6_projection_witness :
    (∃ out, projectRecord ["pl_name", "sy_dist"]
        [("pl_name", "X"), ("sy_dist", ""), ("extra", "z")] = .ok out) ∧
    ([("pl_name", "X"), ("sy_dist", "")] : Record) =
      (["pl_name", "sy_dist"].map (fun f =>
        (f, ((getField [("pl_name", "X"), ("sy_dist", ""), ("extra", "z")] f).getD "")))) :=
  ⟨(C6_projection.1 ["pl_name", "sy_dist"]
      [("pl_name", "X"), ("sy_dist", ""), ("extra", "z")]).mpr (by decide),
    C6_projection.2 ["pl_name", "sy_dist"]
      [("pl_name", "X"), ("sy_dist", ""), ("extra", "z")]
      [("pl_name", "X"), ("sy_dist", "")] (by decide)⟩

/-- C3 evidence: the orbital-period renderer emits the estimated block
above 10000 days and the plain block below (with 365.25 days equal to
exactly one Earth year, formatted 1.0000), but at exactly 10000 days it
emits nothing at all, while `enumerate` still consumes the rank, so the
rank sequence of the emitted blocks has a gap; the claim (and the
docstring of the source) promise one block per record. -/
theorem C3_orbital_period_boundary :
    orbitalEntry [("pl_name", "P1"), ("pl_orbper", "10000")] = .ok none ∧
    orbitalEntry [("pl_name", "P2"), ("pl_orbper", "15000")] =
      .ok (some (.data 15000 (ratDiv 15000 EARTH_YEAR) true)) ∧
    orbitalEntry [("pl_name", "P3"), ("pl_orbper", "365.25")] =
      .ok (some (.data (Rat.divInt 1461 4) 1 false)) ∧
    fmtComma 4 (1 : ℚ) = "1.0000" ∧
    renderFrom orbitalEntry 1
        [[("pl_name", "P2"), ("pl_orbper", "15000")],
          [("pl_name", "P1"), ("pl_orbper", "10000")],
          [("pl_name", "P3"), ("pl_orbper", "365.25")]] =
      .ok [(1, some (.data 15000 (ratDiv 15000 EARTH_YEAR) true)), (2, none),
        (3, some (.data (Rat.divInt 1461 4) 1 false))] :=
  ⟨by decide, by decide, by decide, by decide, by decide⟩

/-- C9: the distance report converts a known distance of q parsecs to
exactly q × 3.085677581e16 / 1000 kilometres, q × 206265 astronomical
units and q × 3.26156 light-years, and at `sy_dist = "10"` renders
km as `308,567,758,100,000` (thousands separators, zero decimals),
au as `2,062,650`, the light-year value 32.6156 (printed `32.62` at
the two decimals the source uses) and parsecs `10.00`. -/
theorem C9_distance_conversions :
    (∀ (r : Record) (v : String) (q : ℚ),
      getField r "sy_dist" = some v → v ≠ "" → parseFloat v = some q →
      distanceEntry r = .ok (.data (q * 3.085677581e16 / 1000) (q * 206265) (q * 3.26156) q
        (fmtComma 0 (ratDiv (ratMul q PARSEC_M) 1000)) (fmtComma 0 (ratMul q AU_PER_PARSEC))
        (fmtComma 2 (ratMul q LIGHTYEARS_PER_PARSEC)) (fmtComma 2 q))) ∧
    distanceEntry [("pl_name", "X"), ("sy_dist", "10")] =
      .ok (.data 308567758100000 2062650 (Rat.divInt 326156 10000) 10
        "308,567,758,100,000" "2,062,650" "32.62" "10.00") := by
  constructor
  · intro r v q hg hv hp
    simp [distanceEntry, hg, hv, hp, ratMul_eq, ratDiv_eq, PARSEC_M_eq,
      LIGHTYEARS_PER_PARSEC_eq, AU_PER_PARSEC]
  · decide

/-- Concrete instance of the universal part of C9 at two parsecs. -/
theorem C9_distance_conversions_witness :
    distanceEntry [("pl_name", "Y"), ("sy_dist", "2")] =
      .ok (.data ((2 : ℚ) * 3.085677581e16 / 1000) ((2 : ℚ) * 206265) ((2 : ℚ) * 3.26156) 2
        (fmtComma 0 (ratDiv (ratMul 2 PARSEC_M) 1000)) (fmtComma 0 (ratMul 2 AU_PER_PARSEC))
        (fmtComma 2 (ratMul 2 LIGHTYEARS_PER_PARSEC)) (fmtComma 2 2)) :=
  C9_distance_conversions.1 [("pl_name", "Y"), ("sy_dist", "2")] "2" 2
    (by decide) (by decide) (by decide)

/-! ### The JSON snapshot writer (`write_json`) and its round trip -/

/-- JSON string escaping as `json.dump` performs it on printable ASCII
text: a quote or a backslash receives a backslash prefix.  Control and
non-ASCII characters, which `json.dump` writes as `\uXXXX` escapes, are
excluded by hypothesis in the round-trip theorem; on printable ASCII
this model is exact. -/
def escapeChars : List Char → List Char
  | [] => []
  | c :: cs =>
    if c = '"' ∨ c = '\\' then '\\' :: c :: escapeChars cs
    else c :: escapeChars cs

/-- A JSON string literal. -/
def dumpStringChars (s : String) : List Char :=
  '"' :: (escapeChars s.toList ++ ['"'])

/-- One `"key": "value"` member at the four-space indentation
`json.dump(..., indent=2)` gives members of an object nested in the
top-level array. -/
def dumpPairChars (p : String × String) : List Char :=
  ' ' :: ' ' :: ' ' :: ' ' :: (dumpStringChars p.1 ++ ':' :: ' ' :: dumpStringChars p.2)

/-- Join chunks with a separator. -/
def joinChars (sep : List Char) : List (List Char) → List Char
  | [] => []
  | [x] => x
  | x :: y :: rest => x ++ sep ++ joinChars sep (y :: rest)

/-- One record as `json.dump(..., indent=2)` prints it inside the
array: empty objects print as a brace pair, otherwise one member per
line and the closing brace at the two-space array indentation. -/
def dumpObjChars (r : Record) : List Char :=
  match r with
  | [] => ['{', '}']
  | p :: ps =>
    '{' :: '\n' ::
      (joinChars [',', '\n'] ((p :: ps).map dumpPairChars) ++ ['\n', ' ', ' ', '}'])

/-- `write_json(reader, file)`: collect the rows into a list and
serialize it with `json.dump(json_format, f, indent=2)`; the resulting
file contents as a string. -/
def write_json (rs : List Record) : String :=
  match rs with
  | [] => "[]"
  | r :: rss =>
    String.mk ('[' :: '\n' ::
      (joinChars [',', '\n'] ((r :: rss).map (fun r2 => ' ' :: ' ' :: dumpObjChars r2)) ++
        ['\n', ']']))

/-- Skip JSON whitespace. -/
def skipWs : List Char → List Char
  | [] => []
  | c :: cs => if c = ' ' ∨ c = '\n' ∨ c = '\t' ∨ c = '\r' then skipWs cs else c :: cs

/-- Skip whitespace, then demand the character `ch`. -/
def expectChar (ch : Char) (cs : List Char) : Option (List Char) :=
  match skipWs cs with
  | [] => none
  | c :: rest => if c = ch then some rest else none

/-- Parse the body of a JSON string literal after its opening quote,
undoing the backslash escapes of quote and backslash. -/
def parseStrAux : List Char → List Char → Option (String × List Char)
  | [], _ => none
  | c :: rest, acc =>
    if c = '"' then some (String.mk acc.reverse, rest)
    else if c = '\\' then
      match rest with
      | [] => none
      | c2 :: rest2 =>
        if c2 = '"' ∨ c2 = '\\' then parseStrAux rest2 (c2 :: acc) else none
    else parseStrAux rest (c :: acc)

/-- Parse one `"key": "value"` member. -/
def parsePair (cs : List Char) : Option ((String × String) × List Char) :=
  match expectChar '"' cs with
  | none => none
  | some cs1 =>
    match parseStrAux cs1 [] with
    | none => none
    | some (k, cs2) =>
      match expectChar ':' cs2 with
      | none => none
      | some cs3 =>
        match expectChar '"' cs3 with
        | none => none
        | some cs4 =>
          match parseStrAux cs4 [] with
          | none => none
          | some (v, cs5) => some ((k, v), cs5)

/-- Parse the members of a non-empty object after its opening brace;
`fuel` bounds the loop, one unit per member. -/
def parsePairsAux : ℕ → List Char → List (String × String) → Option (Record × List Char)
  | 0, _, _ => none
  | fuel + 1, cs, acc =>
    match parsePair cs with
    | none => none
    | some (p, cs1) =>
      match skipWs cs1 with
      | [] => none
      | c :: cs2 =>
        if c = ',' then parsePairsAux fuel cs2 (p :: acc)
        else if c = '}' then some ((p :: acc).reverse, cs2)
        else none

/-- Parse one object. -/
def parseObj (fuel : ℕ) (cs : List Char) : Option (Record × List Char) :=
  match expectChar '{' cs with
  | none => none
  | some cs1 =>
    match expectChar '}' cs1 with
    | some cs2 => some ([], cs2)
    | none => parsePairsAux fuel cs1 []

/-- Parse the elements of a non-empty top-level array after its opening
bracket. -/
def parseObjsAux : ℕ → List Char → List Record → Option (List Record × List Char)
  | 0, _, _ => none
  | fuel + 1, cs, acc =>
    match parseObj fuel cs with
    | none => none
    | some (r, cs1) =>
      match skipWs cs1 with
      | [] => none
      | c :: cs2 =>
        if c = ',' then parseObjsAux fuel cs2 (r :: acc)
        else if c = ']' then some ((r :: acc).reverse, cs2)
        else none

/-- `json.load` on a snapshot file: an array of objects whose members
are all strings, the only shape `write_json` produces. -/
def parseRecords (s : String) : Option (List Record) :=
  let cs := s.toList
  match expectChar '[' cs with
  | none => none
  | some cs1 =>
    match expectChar ']' cs1 with
    | some cs2 => if skipWs cs2 = [] then some [] else none
    | none =>
      match parseObjsAux (cs.length + 1) cs1 [] with
      | none => none
      | some (rs, rest) => if skipWs rest = [] then some rs else none

theorem toList_mk (l : List Char) : (String.mk l).toList = l := rfl

theorem mk_toList (s : String) : String.mk s.toList = s := rfl

theorem parseStrAux_escape (l : List Char) : ∀ (acc rest : List Char),
    parseStrAux (escapeChars l ++ '"' :: rest) acc =
      some (String.mk (acc.reverse ++ l), rest) := by
  induction l with
  | nil =>
    intro acc rest
    rw [escapeChars, List.nil_append, parseStrAux.eq_def]
    simp
  | cons c l ih =>
    intro acc rest
    by_cases hc : c = '"' ∨ c = '\\'
    · simp only [escapeChars, if_pos hc, List.cons_append]
      rw [parseStrAux.eq_def]
      simp [hc, ih (c :: acc)]
    · push_neg at hc
      simp only [escapeChars, if_neg (not_or.mpr ⟨hc.1, hc.2⟩), List.cons_append]
      rw [parseStrAux.eq_def]
      simp [hc.1, hc.2, ih (c :: acc)]

theorem joinChars_cons (sep x : List Char) (xs : List (List Char)) :
    joinChars sep (x :: xs) =
      x ++ (if xs = [] then [] else sep ++ joinChars sep xs) := by
  cases xs with
  | nil => simp [joinChars]
  | cons y ys => simp [joinChars]

theorem parsePair_dump (p : String × String) (rest : List Char) :
    parsePair ('\n' :: (dumpPairChars p ++ rest)) = some (p, rest) := by
  obtain ⟨k, v⟩ := p
  simp [parsePair, expectChar, skipWs, parseStrAux_escape, dumpPairChars,
    dumpStringChars, mk_toList]

theorem parsePairsAux_dump (ps : List (String × String)) :
    ∀ (fuel : ℕ) (acc : List (String × String)) (rest : List Char),
      ps ≠ [] → ps.length ≤ fuel →
      parsePairsAux fuel
          ('\n' :: (joinChars [',', '\n'] (ps.map dumpPairChars) ++
            ('\n' :: ' ' :: ' ' :: '}' :: rest))) acc =
        some (acc.reverse ++ ps, rest) := by
  induction ps with
  | nil => intro fuel acc rest hne _; exact absurd rfl hne
  | cons p ps ih =>
    intro fuel acc rest _ hfuel
    cases fuel with
    | zero => simp at hfuel
    | succ fuel =>
      rw [List.map_cons, joinChars_cons]
      by_cases hps : ps = []
      · subst hps
        simp only [List.map_nil, eq_self_iff_true, if_true, List.append_nil]
        simp only [parsePairsAux, parsePair_dump p]
        simp [skipWs]
      · have hmapne : ps.map dumpPairChars ≠ [] :=
          fun h => hps (List.map_eq_nil_iff.mp h)
        rw [if_neg hmapne]
        simp only [List.append_assoc, List.cons_append, List.singleton_append,
          List.nil_append]
        simp only [parsePairsAux, parsePair_dump p]
        have hrec := ih fuel (p :: acc) rest hps (Nat.le_of_succ_le_succ hfuel)
        simp [skipWs, hrec]

theorem parseObj_dump (r : Record) (fuel : ℕ) (hfuel : r.length ≤ fuel) :
    ∀ rest : List Char,
      parseObj fuel ('\n' :: ' ' :: ' ' :: (dumpObjChars r ++ rest)) = some (r, rest) := by
  intro rest
  cases r with
  | nil => simp [dumpObjChars, parseObj, expectChar, skipWs]
  | cons p ps =>
    rw [dumpObjChars]
    have h1 : expectChar '{'
        ('\n' :: ' ' :: ' ' ::
          (('{' :: '\n' ::
              (joinChars [',', '\n'] ((p :: ps).map dumpPairChars) ++ ['\n', ' ', ' ', '}'])) ++
            rest)) =
        some ('\n' ::
          ((joinChars [',', '\n'] ((p :: ps).map dumpPairChars) ++ ['\n', ' ', ' ', '}']) ++
            rest)) := by
      simp [expectChar, skipWs]
    have h2 : expectChar '}'
        ('\n' ::
          ((joinChars [',', '\n'] ((p :: ps).map dumpPairChars) ++ ['\n', ' ', ' ', '}']) ++
            rest)) = none := by
      rw [List.map_cons, joinChars_cons]
      by_cases hm : ps.map dumpPairChars = []
      · rw [if_pos hm]
        simp [expectChar, skipWs, dumpPairChars, dumpStringChars]
      · rw [if_neg hm]
        simp [expectChar, skipWs, dumpPairChars, dumpStringChars]
    have h3 := parsePairsAux_dump (p :: ps) fuel [] rest (by simp) hfuel
    simp only [parseObj, h1, h2]
    simp only [List.append_assoc, List.cons_append, List.singleton_append,
      List.nil_append] at h3 ⊢
    rw [h3]
    simp

theorem parseObjsAux_dump (rss : List Record) :
    ∀ (fuel : ℕ) (acc : List Record) (rest : List Char),
      rss ≠ [] → (∀ r ∈ rss, rss.length + r.length ≤ fuel) →
      parseObjsAux fuel
          ('\n' :: (joinChars [',', '\n']
              (rss.map (fun r => ' ' :: ' ' :: dumpObjChars r)) ++
            ('\n' :: ']' :: rest))) acc =
        some (acc.reverse ++ rss, rest) := by
  induction rss with
  | nil => intro fuel acc rest hne _; exact absurd rfl hne
  | cons r rss ih =>
    intro fuel acc rest _ hfuel
    cases fuel with
    | zero =>
      have := hfuel r (List.mem_cons_self _ _)
      simp at this
    | succ fuel =>
      have hrlen : r.length ≤ fuel := by
        have := hfuel r (List.mem_cons_self _ _)
        simp only [List.length_cons] at this
        omega
      rw [List.map_cons, joinChars_cons]
      by_cases hrss : rss = []
      · subst hrss
        simp only [List.map_nil, eq_self_iff_true, if_true, List.append_nil]
        simp only [List.cons_append, List.append_assoc, List.nil_append]
        simp only [parseObjsAux, parseObj_dump r fuel hrlen]
        simp [skipWs]
      · have hmapne : rss.map (fun r2 => ' ' :: ' ' :: dumpObjChars r2) ≠ [] :=
          fun h => hrss (List.map_eq_nil_iff.mp h)
        rw [if_neg hmapne]
        simp only [List.append_assoc, List.cons_append, List.singleton_append,
          List.nil_append]
        simp only [parseObjsAux, parseObj_dump r fuel hrlen]
        have hrec := ih fuel (r :: acc) rest hrss (by
          intro r2 hr2
          have := hfuel r2 (List.mem_cons_of_mem _ hr2)
          simp only [List.length_cons] at this ⊢
          omega)
        simp [skipWs, hrec]

theorem length_le_joinChars (sep : List Char) :
    ∀ xs : List (List Char), (∀ x ∈ xs, 1 ≤ x.length) →
      xs.length ≤ (joinChars sep xs).length := by
  intro xs
  induction xs with
  | nil => simp
  | cons x ys ih =>
    intro hall
    cases ys with
    | nil =>
      simpa using hall x (List.mem_cons_self _ _)
    | cons y zs =>
      rw [joinChars]
      have h1 := hall x (List.mem_cons_self _ _)
      have h2 := ih (fun z hz => hall z (List.mem_cons_of_mem _ hz))
      simp only [List.length_append, List.length_cons] at *
      omega

theorem mem_add_length_le_joinChars (sep : List Char) :
    ∀ (xs : List (List Char)) (x : List Char), x ∈ xs → (∀ y ∈ xs, 1 ≤ y.length) →
      xs.length + x.length ≤ (joinChars sep xs).length + 1 := by
  intro xs
  induction xs with
  | nil => intro x hx; cases hx
  | cons z zs ih =>
    intro x hx hall
    rcases List.mem_cons.mp hx with he | hmem
    · subst he
      cases zs with
      | nil => simp [joinChars]; omega
      | cons w ws =>
        rw [joinChars]
        have h2 := length_le_joinChars sep (w :: ws)
          (fun y hy => hall y (List.mem_cons_of_mem _ hy))
        simp only [List.length_append, List.length_cons] at *
        omega
    · have hzs : zs ≠ [] := fun h => by rw [h] at hmem; cases hmem
      cases zs with
      | nil => exact absurd rfl hzs
      | cons w ws =>
        rw [joinChars]
        have h1 := hall z (List.mem_cons_self _ _)
        have h2 := ih x hmem (fun y hy => hall y (List.mem_cons_of_mem _ hy))
        simp only [List.length_append, List.length_cons] at *
        omega

theorem dumpObjChars_length (r : Record) : r.length + 1 ≤ (dumpObjChars r).length := by
  cases r with
  | nil => simp [dumpObjChars]
  | cons p ps =>
    rw [dumpObjChars]
    have h1 := length_le_joinChars [',', '\n'] ((p :: ps).map dumpPairChars)
      (by
        intro x hx
        obtain ⟨q, _, hq⟩ := List.mem_map.mp hx
        rw [← hq, dumpPairChars]
        simp)
    simp only [List.length_map, List.length_append, List.length_cons] at *
    omega

/-- C8: writing a record collection with `write_json` and parsing the
written JSON back reproduces the same sequence of string-to-string
mappings, with no numeric coercion (the values remain raw strings by
construction).  The hypothesis confines field names and values to
printable ASCII, the range on which the escaping model used here
coincides exactly with `json.dump`. -/
theorem C8_write_json_roundtrip (rs : List Record)
    (hascii : ∀ r ∈ rs, ∀ p ∈ r,
      (∀ c ∈ p.1.toList, 31 < c.toNat ∧ c.toNat < 127) ∧
      (∀ c ∈ p.2.toList, 31 < c.toNat ∧ c.toNat < 127)) :
    parseRecords (write_json rs) = some rs := by
  cases rs with
  | nil => decide
  | cons r rss =>
    rw [write_json]
    simp only [parseRecords, toList_mk]
    have h1 : expectChar '['
        ('[' :: '\n' ::
          (joinChars [',', '\n'] ((r :: rss).map (fun r2 => ' ' :: ' ' :: dumpObjChars r2)) ++
            ['\n', ']'])) =
        some ('\n' ::
          (joinChars [',', '\n'] ((r :: rss).map (fun r2 => ' ' :: ' ' :: dumpObjChars r2)) ++
            ['\n', ']'])) := by
      simp [expectChar, skipWs]
    have h2 : expectChar ']'
        ('\n' ::
          (joinChars [',', '\n'] ((r :: rss).map (fun r2 => ' ' :: ' ' :: dumpObjChars r2)) ++
            ['\n', ']'])) = none := by
      rw [List.map_cons, joinChars_cons]
      by_cases hm : rss.map (fun r2 => ' ' :: ' ' :: dumpObjChars r2) = [] <;>
        cases r <;>
        simp [hm, expectChar, skipWs, dumpObjChars]
    have hfuelbound : ∀ r2 ∈ (r :: rss),
        (r :: rss).length + r2.length ≤
          ('[' :: '\n' ::
            (joinChars [',', '\n']
                ((r :: rss).map (fun r2 => ' ' :: ' ' :: dumpObjChars r2)) ++
              ['\n', ']'])).length + 1 := by
      intro r2 hr2
      have hA := dumpObjChars_length r2
      have hC := mem_add_length_le_joinChars [',', '\n']
        ((r :: rss).map (fun r3 => ' ' :: ' ' :: dumpObjChars r3))
        (' ' :: ' ' :: dumpObjChars r2)
        (List.mem_map_of_mem _ hr2)
        (by
          intro y hy
          obtain ⟨z, _, hz⟩ := List.mem_map.mp hy
          rw [← hz]
          simp)
      simp only [List.length_map, List.length_cons, List.length_append] at hC ⊢
      omega
    have h3 := parseObjsAux_dump (r :: rss)
      (('[' :: '\n' ::
        (joinChars [',', '\n'] ((r :: rss).map (fun r2 => ' ' :: ' ' :: dumpObjChars r2)) ++
          ['\n', ']'])).length + 1) [] [] (by simp) hfuelbound
    simp only [h1, h2]
    simp only [List.append_assoc, List.cons_append, List.singleton_append,
      List.nil_append, List.append_nil] at h3 ⊢
    rw [h3]
    simp [skipWs]

/-- Concrete instance of C8 on two records, one of them empty, with a
value that needs no escaping and one with an embedded quote. -/
theorem C8_write_json_roundtrip_witness :
    parseRecords (write_json
        [[("pl_name", "Kepler-22 b"), ("sy_dist", "190.0")], [],
          [("note", "a \"quoted\" word")]]) =
      some [[("pl_name", "Kepler-22 b"), ("sy_dist", "190.0")], [],
        [("note", "a \"quoted\" word")]] :=
  C8_write_json_roundtrip
    [[("pl_name", "Kepler-22 b"), ("sy_dist", "190.0")], [],
      [("note", "a \"quoted\" word")]] (by decide)

end Exo
